import Mathlib

/-!
Verification of the inherent-generation engine of
`blockchain-albatross/src/blockchain/inherents.rs`.

The four functions of that file — `create_slash_inherents`,
`inherent_from_fork_proof`, `inherents_from_view_changes`,
`finalize_previous_batch`, `finalize_previous_epoch` — are embedded as
executable Lean functions.  Rust panics (`expect`, `unwrap`, failed
`assert!`, out-of-bounds indexing, sampling from an empty alias table)
are modelled by returning `none`.  Machine integers are modelled as
`Nat`; the single narrowing cast of the source (`*next_slashed_slot as
u16`) is modelled explicitly as `% 65536`.  The external collaborators
that live in other crates of the repository (the `policy` module, the
slot resolver, the `vrf` crate's RNG and alias sampler, `beserial`
serialization of `SlashedSlot`, `block_reward_for_batch`, the network
info registry lookup) are fields of an environment record `Env`,
modelled from the spec at their interface boundary.
-/

/-- Addresses are opaque identifiers. -/
abbrev Address := Nat

/-- Coin values; `u64` in the source.  Arithmetic in the source is
checked (overflow is a fatal panic); completed runs therefore compute
the exact natural-number values modelled here. -/
abbrev Coin := Nat

/-- Opaque validator public key. -/
abbrev ValidatorKey := Nat

/-- Slot identifier returned by the slot resolver. -/
abbrev SlotId := Nat

/-- The four inherent kinds of `account::InherentType`. -/
inductive InherentType where
  | Slash
  | Reward
  | FinalizeBatch
  | FinalizeEpoch
  deriving DecidableEq

/-- Embedding of `account::Inherent`: a protocol-synthesized pseudo-transaction. -/
structure Inherent where
  ty : InherentType
  target : Address
  value : Coin
  data : List Nat
  deriving DecidableEq

/-- Embedding of `primitives::slot::SlashedSlot`, the payload
serialized into the data of a Slash inherent. -/
structure SlashedSlot where
  slot : SlotId
  validatorKey : ValidatorKey
  eventBlock : Nat
  deriving DecidableEq

/-- The producing validator identity returned by the slot resolver. -/
structure Producer where
  publicKey : ValidatorKey
  deriving DecidableEq

/-- Embedding of `block::ForkProof`: only `header1.block_number` and
`header1.view_number` are read by this engine. -/
structure ForkProofHeader where
  blockNumber : Nat
  viewNumber : Nat
  deriving DecidableEq

structure ForkProof where
  header1 : ForkProofHeader
  deriving DecidableEq

/-- Embedding of `block::ViewChanges`. -/
structure ViewChanges where
  blockNumber : Nat
  firstViewNumber : Nat
  lastViewNumber : Nat
  deriving DecidableEq

/-- A validator slot band: `num_slots()` and `reward_address()`. -/
structure ValidatorSlotBand where
  numSlots : Nat
  rewardAddress : Address
  deriving DecidableEq

/-- The `validator_slots` of the previous batch's `Slots`. -/
structure Slots where
  validatorSlots : List ValidatorSlotBand
  deriving DecidableEq

/-- A macro block header: the fields read by this engine
(`block_number` and the verifiable random `seed`). -/
structure MacroHeader where
  blockNumber : Nat
  seed : Nat
  deriving DecidableEq

/-- Embedding of `ChainInfo`, restricted to what
`finalize_previous_batch` reads: the macro head
(`head.unwrap_macro_ref()`) and `cum_tx_fees`. -/
structure ChainInfo where
  head : MacroHeader
  cumTxFees : Coin
  deriving DecidableEq

/-- VRF use cases; only `RewardDistribution` is used by this engine. -/
inductive VrfUseCase where
  | RewardDistribution
  deriving DecidableEq

/-- The read-only blockchain state snapshot passed to
`finalize_previous_batch`: the previous macro chain info, the previous
batch's slots, the staking contract's two slot-index sets (iterated in
ascending order by the underlying bitsets), and the accounts view
(`state.accounts.get(target).check_inherent(inherent, height)`,
modelled as a boolean acceptance predicate, `true` meaning `is_ok`). -/
structure BlockchainState where
  macroInfo : ChainInfo
  previousSlots : Option Slots
  previousLostRewards : List Nat
  previousDisabledSlots : List Nat
  checkInherent : Inherent → Nat → Bool

/-- The blockchain environment: protocol constants and the external
collaborators of other crates, modelled from the spec at their
interface boundary (`policy`, `NetworkInfo`, the slot resolver, the
`vrf` RNG, `beserial`, `block_reward_for_batch`). -/
structure Env where
  /-- Constant `policy::SLOTS`, the size of the global slot index
  space; a positive protocol constant. -/
  SLOTS : Nat
  SLOTS_pos : 0 < SLOTS
  /-- Modelled from the spec: `policy::batch_at` maps a block number
  to its batch index (the `policy` crate is not part of the embedded
  sources). -/
  batchAt : Nat → Nat
  genesisSupply : Nat
  genesisTimestamp : Nat
  /-- Modelled from the spec: `crate::reward::block_reward_for_batch`,
  a pure function of the two macro headers and the genesis
  supply/timestamp. -/
  blockRewardForBatch : MacroHeader → MacroHeader → Nat → Nat → Coin
  /-- Lookup `NetworkInfo::from_network_id(..).validator_registry_address()`. -/
  validatorRegistry : Option Address
  /-- Address `Address::burn_address()`. -/
  burnAddress : Address
  /-- Modelled from the spec: the slot resolver `get_slot_at
  (block_number, view_number)`, returning the producing validator and
  its slot on success. -/
  getSlotAt : Nat → Nat → Option (Producer × SlotId)
  /-- Modelled from the spec: the deterministic `beserial` byte
  serialization of a `SlashedSlot`. -/
  serializeSlashedSlot : SlashedSlot → List Nat
  /-- Modelled from the spec: the `vrf` crate's
  `seed.rng(use_case, sub_index)` followed by one `u64` draw — a
  deterministic function of the seed, the use case and the sub-index. -/
  rng : Nat → VrfUseCase → Nat → Nat

/-- Modelled from the spec: the `vrf` crate's `AliasMethod` sampler.
Given a uniform draw `r`, it selects index `i` with probability
`weights[i] / weights.sum`: `r % total` is located in the cumulative
weight intervals.  With total weight zero the distribution is
undefined (the source's `% total` faults), modelled as `none`. -/
def pickWeighted : List Nat → Nat → Nat
  | [], _ => 0
  | w :: ws, r => if r < w then 0 else pickWeighted ws (r - w) + 1

def aliasSample (weights : List Nat) (r : Nat) : Option Nat :=
  if weights.sum = 0 then none else some (pickWeighted weights (r % weights.sum))

/-- Computation `slashed_set = previous_lost_rewards() &
previous_disabled_slots()`: the intersection of the two slot-index
sets, in the iteration order of the lost-rewards set. -/
def slashedSet (s : BlockchainState) : List Nat :=
  s.previousLostRewards.filter (fun x => s.previousDisabledSlots.contains x)

/-- The inner `while let Some(next_slashed_slot) = slashed_set_iter.peek()`
loop of `finalize_previous_batch`.  The iterator is only ever peeked,
never advanced, so the head of `slashed` is re-examined on every
iteration.  `assert!(next_slashed_slot >= first_slot_number)` and
`assert!(num_eligible_slots > 0)` failures are `none`.  The source
casts the peeked `usize` to `u16`, modelled as `% 65536`. -/
def slashCount (slashed : List Nat) (first last : Nat) : Nat → Nat → Option (Nat × Nat)
  | numElig, numSlashed =>
    match slashed with
    | [] => some (numElig, numSlashed)
    | s :: _ =>
      if s % 65536 < first then none
      else if s % 65536 < last then
        match numElig with
        | 0 => none
        | n + 1 => slashCount slashed first last n (numSlashed + 1)
      else some (numElig, numSlashed)

/-- The `for validator_slot in validator_slots.iter()` loop of
`finalize_previous_batch`: per band, count slashed slots, accumulate
the burned reward, build the candidate Reward inherent, query
acceptance; an accepted inherent is appended together with its
eligible-slot count, a rejected band's whole reward is burned. -/
def bandLoop (s : BlockchainState) (blockNumber slotReward : Nat) :
    List ValidatorSlotBand → List Nat → Nat → List Inherent → List Nat → Coin →
    Option (List Inherent × List Nat × Coin)
  | [], _, _, inherents, weights, burned => some (inherents, weights, burned)
  | band :: rest, slashed, first, inherents, weights, burned =>
    match slashCount slashed first (first + band.numSlots) band.numSlots 0 with
    | none => none
    | some (numElig, numSlashed) =>
      if s.checkInherent ⟨InherentType.Reward, band.rewardAddress, slotReward * numElig, []⟩ blockNumber then
        bandLoop s blockNumber slotReward rest slashed (first + band.numSlots)
          (inherents ++ [⟨InherentType.Reward, band.rewardAddress, slotReward * numElig, []⟩])
          (weights ++ [numElig])
          (burned + slotReward * numSlashed)
      else
        bandLoop s blockNumber slotReward rest slashed (first + band.numSlots)
          inherents weights
          (burned + slotReward * numSlashed + slotReward * numElig)

/-- Computation `reward_pot = block_reward_for_batch(..) + chain_info.cum_tx_fees`. -/
def rewardPot (env : Env) (s : BlockchainState) (ci : ChainInfo) : Coin :=
  env.blockRewardForBatch ci.head s.macroInfo.head env.genesisSupply env.genesisTimestamp
    + ci.cumTxFees

/-- Computation `slot_reward = reward_pot / policy::SLOTS`. -/
def slotReward (env : Env) (s : BlockchainState) (ci : ChainInfo) : Coin :=
  rewardPot env s ci / env.SLOTS

/-- Computation `remainder = reward_pot % policy::SLOTS`. -/
def remainder (env : Env) (s : BlockchainState) (ci : ChainInfo) : Coin :=
  rewardPot env s ci % env.SLOTS

/-- Update `inherents[index].value += remainder`; out-of-range
indexing is guarded by the caller (a Rust indexing panic). -/
def addToValue (l : List Inherent) (i r : Nat) : List Inherent :=
  match l.get? i with
  | none => l
  | some x => l.set i ⟨x.ty, x.target, x.value + r, x.data⟩

/-- Embedding of `Blockchain::finalize_previous_batch`.  The genesis special case
returns `[]`; a missing `previous_slots` (`expect`), a failed per-band
loop assertion, a failed accepted/weights length check (`assert_eq!`),
an undefined lottery draw, an out-of-range lottery index or a missing
validator-registry address (`expect`) are `none`. -/
def finalizePreviousBatch (env : Env) (s : BlockchainState) (ci : ChainInfo) :
    Option (List Inherent) :=
  if env.batchAt ci.head.blockNumber - 1 = 0 then some []
  else
    match s.previousSlots with
    | none => none
    | some prevSlots =>
      match bandLoop s ci.head.blockNumber (slotReward env s ci)
          prevSlots.validatorSlots (slashedSet s) 0 [] [] 0 with
      | none => none
      | some (inherents, weights, burned) =>
        if inherents.length = weights.length then
          match aliasSample weights (env.rng ci.head.seed VrfUseCase.RewardDistribution 0) with
          | none => none
          | some index =>
            if index < inherents.length then
              match env.validatorRegistry with
              | none => none
              | some reg =>
                some (addToValue inherents index (remainder env s ci)
                  ++ [⟨InherentType.Reward, env.burnAddress, burned, []⟩,
                      ⟨InherentType.FinalizeBatch, reg, 0, []⟩])
            else none
        else none

/-- Embedding of `Blockchain::inherent_from_fork_proof`. -/
def inherentFromForkProof (env : Env) (fp : ForkProof) : Option Inherent :=
  match env.validatorRegistry with
  | none => none
  | some reg =>
    match env.getSlotAt fp.header1.blockNumber fp.header1.viewNumber with
    | none => none
    | some (producer, slot) =>
      some ⟨InherentType.Slash, reg, 0,
        env.serializeSlashedSlot ⟨slot, producer.publicKey, fp.header1.blockNumber⟩⟩

/-- The `(first_view_number..last_view_number).map(..).collect()` body
of `inherents_from_view_changes`, in iteration order; an unresolvable
slot (`unwrap`) is `none`. -/
def viewChangeLoop (env : Env) (reg : Address) (blockNumber : Nat) :
    List Nat → Option (List Inherent)
  | [] => some []
  | v :: vs =>
    match env.getSlotAt blockNumber v with
    | none => none
    | some (producer, slot) =>
      match viewChangeLoop env reg blockNumber vs with
      | none => none
      | some rest =>
        some (⟨InherentType.Slash, reg, 0,
          env.serializeSlashedSlot ⟨slot, producer.publicKey, blockNumber⟩⟩ :: rest)

/-- Embedding of `Blockchain::inherents_from_view_changes`: one Slash inherent per
view number in the half-open range
`[first_view_number, last_view_number)`. -/
def inherentsFromViewChanges (env : Env) (vc : ViewChanges) : Option (List Inherent) :=
  match env.validatorRegistry with
  | none => none
  | some reg =>
    viewChangeLoop env reg vc.blockNumber
      (List.range' vc.firstViewNumber (vc.lastViewNumber - vc.firstViewNumber))

/-- The `for fork_proof in fork_proofs` loop of
`create_slash_inherents`, in input order. -/
def forkLoop (env : Env) : List ForkProof → Option (List Inherent)
  | [] => some []
  | fp :: rest =>
    match inherentFromForkProof env fp with
    | none => none
    | some i =>
      match forkLoop env rest with
      | none => none
      | some l => some (i :: l)

/-- Embedding of `Blockchain::create_slash_inherents`: fork-proof inherents first,
then (if present) the view-change inherents. -/
def createSlashInherents (env : Env) (forkProofs : List ForkProof)
    (viewChanges : Option ViewChanges) : Option (List Inherent) :=
  match forkLoop env forkProofs with
  | none => none
  | some l1 =>
    match viewChanges with
    | none => some l1
    | some vc =>
      match inherentsFromViewChanges env vc with
      | none => none
      | some l2 => some (l1 ++ l2)

/-- Embedding of `Blockchain::finalize_previous_epoch`; a missing
validator-registry address (`expect`) is `none`. -/
def finalizePreviousEpoch (env : Env) : Option Inherent :=
  match env.validatorRegistry with
  | none => none
  | some reg => some ⟨InherentType.FinalizeEpoch, reg, 0, []⟩

/-- Sum of the values of all inherents of a list. -/
def sumValues (l : List Inherent) : Coin :=
  (l.map Inherent.value).sum

/-- Sum of the values of the Reward inherents of a list. -/
def sumRewardValues (l : List Inherent) : Coin :=
  ((l.filter fun i => decide (i.ty = InherentType.Reward)).map Inherent.value).sum

/-! Concrete instances used to exercise the embedding. -/

/-- A concrete environment: 10 slots, batch index equal to the block
number, a flat block reward of 103, registry address 7, burn address 9,
a slot resolver that always succeeds, and a fixed RNG draw of 3. -/
def envW : Env :=
  ⟨10, by decide, fun n => n, 0, 0, fun _ _ _ _ => 103, some 7, 9,
   fun b v => some (⟨100 + b + v⟩, b + v),
   fun sl => [sl.slot, sl.validatorKey, sl.eventBlock],
   fun _ _ _ => 3⟩

/-- A state with two bands of five slots, an empty slashed set, and
accounts that accept every inherent. -/
def stateW : BlockchainState :=
  ⟨⟨⟨1, 0⟩, 0⟩, some ⟨[⟨5, 11⟩, ⟨5, 12⟩]⟩, [], [], fun _ _ => true⟩

/-- A state with one band of ten slots whose accounts reject every
inherent. -/
def stateRej : BlockchainState :=
  ⟨⟨⟨1, 0⟩, 0⟩, some ⟨[⟨10, 11⟩]⟩, [], [], fun _ _ => false⟩

/-- A state with two bands of five slots and slot 0 slashed. -/
def stateSlash : BlockchainState :=
  ⟨⟨⟨1, 0⟩, 0⟩, some ⟨[⟨5, 11⟩, ⟨5, 12⟩]⟩, [0], [0], fun _ _ => true⟩

/-- Chain info whose head is at block 2 (batch 2, so batch 1 is being
finalized) with seed 42 and no transaction fees. -/
def ciW : ChainInfo := ⟨⟨2, 42⟩, 0⟩

/-- Chain info whose head is at block 1, so the batch being finalized
is batch 0. -/
def ciGen : ChainInfo := ⟨⟨1, 42⟩, 0⟩

def fpW : ForkProof := ⟨⟨5, 1⟩⟩

def vcW : ViewChanges := ⟨6, 2, 4⟩

/-- The inherent list produced by `finalizePreviousBatch envW stateW ciW`:
pot 103 splits into slot reward 10 and remainder 3; both bands accept
50; the lottery (draw 3 over weights [5, 5]) gives the remainder to the
first inherent; nothing is burned. -/
def lW : List Inherent :=
  [⟨InherentType.Reward, 11, 53, []⟩, ⟨InherentType.Reward, 12, 50, []⟩,
   ⟨InherentType.Reward, 9, 0, []⟩, ⟨InherentType.FinalizeBatch, 7, 0, []⟩]

/-- The slash inherents produced from `fpW` and `vcW` under `envW`. -/
def lSlash : List Inherent :=
  [⟨InherentType.Slash, 7, 0, [6, 106, 5]⟩,
   ⟨InherentType.Slash, 7, 0, [8, 108, 6]⟩,
   ⟨InherentType.Slash, 7, 0, [9, 109, 6]⟩]

theorem slashCount_sum (sl : List Nat) (first last : Nat) :
    ∀ e k e' k', slashCount sl first last e k = some (e', k') → e' + k' = e + k := by
  intro e
  induction e with
  | zero =>
    intro k e' k' h
    unfold slashCount at h
    split at h
    · simp only [Option.some.injEq, Prod.mk.injEq] at h
      omega
    · split at h
      · exact absurd h (by simp)
      · split at h
        · exact absurd h (by simp)
        · simp only [Option.some.injEq, Prod.mk.injEq] at h
          omega
  | succ n ih =>
    intro k e' k' h
    unfold slashCount at h
    split at h
    · simp only [Option.some.injEq, Prod.mk.injEq] at h
      omega
    · next s tl =>
      split at h
      · exact absurd h (by simp)
      · split at h
        · have h2 : slashCount (s :: tl) first last n (k + 1) = some (e', k') := h
          have h3 := ih (k + 1) e' k' h2
          omega
        · simp only [Option.some.injEq, Prod.mk.injEq] at h
          omega

theorem slashCount_head_in_band (s : Nat) (tl : List Nat) (first last : Nat)
    (h1 : ¬ s % 65536 < first) (h2 : s % 65536 < last) :
    ∀ e k, slashCount (s :: tl) first last e k = none := by
  intro e
  induction e with
  | zero =>
    intro k
    unfold slashCount
    simp [h1, h2]
  | succ n ih =>
    intro k
    unfold slashCount
    simp [h1, h2, ih (k + 1)]

theorem pickWeighted_lt (ws : List Nat) : ∀ r, r < ws.sum → pickWeighted ws r < ws.length := by
  induction ws with
  | nil => intro r h; simp at h
  | cons w tl ih =>
    intro r h
    unfold pickWeighted
    by_cases h1 : r < w
    · rw [if_pos h1]; simp
    · rw [if_neg h1]
      simp only [List.length_cons, Nat.add_lt_add_iff_right]
      apply ih
      simp only [List.sum_cons] at h
      omega

theorem aliasSample_lt (ws : List Nat) (r i : Nat) (h : aliasSample ws r = some i) :
    i < ws.length := by
  unfold aliasSample at h
  by_cases h0 : ws.sum = 0
  · rw [if_pos h0] at h; exact absurd h (by simp)
  · rw [if_neg h0] at h
    simp only [Option.some.injEq] at h
    subst h
    exact pickWeighted_lt ws _ (Nat.mod_lt _ (Nat.pos_of_ne_zero h0))

theorem addToValue_sumValues (l : List Inherent) :
    ∀ i r, i < l.length → sumValues (addToValue l i r) = sumValues l + r := by
  induction l with
  | nil => intro i r h; simp at h
  | cons x tl ih =>
    intro i r h
    cases i with
    | zero =>
      unfold addToValue
      simp only [List.get?_cons_zero, List.set_cons_zero]
      simp [sumValues, Nat.add_assoc, Nat.add_comm, Nat.add_left_comm]
    | succ n =>
      unfold addToValue
      simp only [List.get?_cons_succ, List.set_cons_succ]
      simp only [List.length_cons, Nat.add_lt_add_iff_right] at h
      have h2 := ih n r h
      unfold addToValue at h2
      cases hg : tl.get? n with
      | none =>
        have := List.get?_eq_none.mp hg
        omega
      | some y =>
        rw [hg] at h2
        simp only [sumValues, List.map_cons, List.sum_cons] at h2 ⊢
        rw [h2]
        exact (Nat.add_assoc _ _ _).symm

theorem addToValue_mem (l : List Inherent) (i r : Nat) (x : Inherent)
    (hx : x ∈ addToValue l i r) : x ∈ l ∨ ∃ y ∈ l, x.ty = y.ty := by
  unfold addToValue at hx
  cases hg : l.get? i with
  | none => rw [hg] at hx; exact Or.inl hx
  | some y =>
    rw [hg] at hx
    rcases List.mem_or_eq_of_mem_set hx with h | h
    · exact Or.inl h
    · right
      exact ⟨y, List.get?_mem hg, by rw [h]⟩

theorem bandLoop_inv (s : BlockchainState) (bn sr : Nat) :
    ∀ (bands : List ValidatorSlotBand) slashed first inh w b acc w' b',
      bandLoop s bn sr bands slashed first inh w b = some (acc, w', b') →
      (sumValues acc + b' = sumValues inh + b + sr * (bands.map ValidatorSlotBand.numSlots).sum)
      ∧ (inh.length = w.length → acc.length = w'.length)
      ∧ ((∀ x ∈ inh, x.ty = InherentType.Reward) → ∀ x ∈ acc, x.ty = InherentType.Reward) := by
  intro bands
  induction bands with
  | nil =>
    intro slashed first inh w b acc w' b' h
    unfold bandLoop at h
    simp only [Option.some.injEq, Prod.mk.injEq] at h
    obtain ⟨h1, h2, h3⟩ := h
    subst h1; subst h2; subst h3
    simp
  | cons band rest ih =>
    intro slashed first inh w b acc w' b' h
    unfold bandLoop at h
    split at h
    · exact absurd h (by simp)
    · next e k hs =>
      have hek := slashCount_sum slashed first (first + band.numSlots) band.numSlots 0 e k hs
      have hmul : sr * e + sr * k = sr * band.numSlots := by
        have h5 : e + k = band.numSlots := by omega
        calc sr * e + sr * k = sr * (e + k) := (Nat.mul_add sr e k).symm
          _ = sr * band.numSlots := by rw [h5]
      have hG : sr * ((band :: rest).map ValidatorSlotBand.numSlots).sum
          = sr * band.numSlots + sr * (rest.map ValidatorSlotBand.numSlots).sum := by
        simp [Nat.mul_add]
      split at h
      · obtain ⟨ihsum, ihlen, ihty⟩ := ih slashed (first + band.numSlots)
          (inh ++ [⟨InherentType.Reward, band.rewardAddress, sr * e, []⟩])
          (w ++ [e]) (b + sr * k) acc w' b' h
        refine ⟨?_, ?_, ?_⟩
        · have hsum2 : sumValues (inh ++ [⟨InherentType.Reward, band.rewardAddress, sr * e, []⟩])
              = sumValues inh + sr * e := by
            simp [sumValues]
          rw [hsum2] at ihsum
          rw [ihsum, hG, ← hmul]
          ring
        · intro hlw
          apply ihlen
          simp [hlw]
        · intro hty
          apply ihty
          intro x hx
          rcases List.mem_append.mp hx with hx1 | hx2
          · exact hty x hx1
          · rw [List.mem_singleton.mp hx2]
      · obtain ⟨ihsum, ihlen, ihty⟩ := ih slashed (first + band.numSlots)
          inh w (b + sr * k + sr * e) acc w' b' h
        refine ⟨?_, ihlen, ihty⟩
        rw [ihsum, hG, ← hmul]
        ring

theorem bandLoop_reject (s : BlockchainState) (bn sr : Nat)
    (hrej : ∀ i n, s.checkInherent i n = false) :
    ∀ (bands : List ValidatorSlotBand) slashed first inh w b acc w' b',
      bandLoop s bn sr bands slashed first inh w b = some (acc, w', b') →
      acc = inh ∧ w' = w := by
  intro bands
  induction bands with
  | nil =>
    intro slashed first inh w b acc w' b' h
    unfold bandLoop at h
    simp only [Option.some.injEq, Prod.mk.injEq] at h
    exact ⟨h.1.symm, h.2.1.symm⟩
  | cons band rest ih =>
    intro slashed first inh w b acc w' b' h
    unfold bandLoop at h
    split at h
    · exact absurd h (by simp)
    · next e k hs =>
      split at h
      · next hacc =>
        rw [hrej ⟨InherentType.Reward, band.rewardAddress, sr * e, []⟩ bn] at hacc
        exact absurd hacc (by simp)
      · exact ih slashed (first + band.numSlots) inh w (b + sr * k + sr * e) acc w' b' h

theorem sumRewardValues_all (l : List Inherent)
    (h : ∀ x ∈ l, x.ty = InherentType.Reward) : sumRewardValues l = sumValues l := by
  unfold sumRewardValues sumValues
  congr 1
  rw [List.filter_eq_self.mpr]
  intro a ha
  simp [h a ha]

theorem sumRewardValues_append (a b : List Inherent) :
    sumRewardValues (a ++ b) = sumRewardValues a + sumRewardValues b := by
  unfold sumRewardValues
  simp

theorem finalize_some_inv (env : Env) (s : BlockchainState) (ci : ChainInfo) (l : List Inherent)
    (hgen : ¬ env.batchAt ci.head.blockNumber - 1 = 0)
    (h : finalizePreviousBatch env s ci = some l) :
    ∃ prevSlots acc w burned index reg,
      s.previousSlots = some prevSlots ∧
      bandLoop s ci.head.blockNumber (slotReward env s ci) prevSlots.validatorSlots (slashedSet s) 0 [] [] 0
        = some (acc, w, burned) ∧
      acc.length = w.length ∧
      aliasSample w (env.rng ci.head.seed VrfUseCase.RewardDistribution 0) = some index ∧
      index < acc.length ∧
      env.validatorRegistry = some reg ∧
      l = addToValue acc index (remainder env s ci)
        ++ [⟨InherentType.Reward, env.burnAddress, burned, []⟩,
            ⟨InherentType.FinalizeBatch, reg, 0, []⟩] := by
  unfold finalizePreviousBatch at h
  rw [if_neg hgen] at h
  split at h
  · exact absurd h (by simp)
  · next prevSlots hps =>
    split at h
    · exact absurd h (by simp)
    · next acc w burned hb =>
      split at h
      · next hlen =>
        split at h
        · exact absurd h (by simp)
        · next index hsamp =>
          split at h
          · next hidx =>
            split at h
            · exact absurd h (by simp)
            · next reg hreg =>
              simp only [Option.some.injEq] at h
              exact ⟨prevSlots, acc, w, burned, index, reg, hps, hb, hlen, hsamp, hidx,
                hreg, h.symm⟩
          · exact absurd h (by simp)
      · exact absurd h (by simp)

theorem forkLoop_length (env : Env) :
    ∀ fps l, forkLoop env fps = some l → l.length = fps.length := by
  intro fps
  induction fps with
  | nil =>
    intro l h
    unfold forkLoop at h
    simp only [Option.some.injEq] at h
    simp [← h]
  | cons fp rest ih =>
    intro l h
    unfold forkLoop at h
    split at h
    · exact absurd h (by simp)
    · next i hi =>
      split at h
      · exact absurd h (by simp)
      · next tl htl =>
        simp only [Option.some.injEq] at h
        subst h
        simp [ih tl htl]

theorem viewChangeLoop_length (env : Env) (reg : Address) (bn : Nat) :
    ∀ vs l, viewChangeLoop env reg bn vs = some l → l.length = vs.length := by
  intro vs
  induction vs with
  | nil =>
    intro l h
    unfold viewChangeLoop at h
    simp only [Option.some.injEq] at h
    simp [← h]
  | cons v rest ih =>
    intro l h
    unfold viewChangeLoop at h
    split at h
    · exact absurd h (by simp)
    · next producer slot hslot =>
      split at h
      · exact absurd h (by simp)
      · next tl htl =>
        simp only [Option.some.injEq] at h
        subst h
        simp [ih tl htl]


/-- C5: whenever the batch index being finalized is 0,
`finalize_previous_batch` returns the empty list immediately, emitting
no inherents of any kind. -/
theorem genesis_batch_returns_empty (env : Env) (s : BlockchainState) (ci : ChainInfo)
    (hgen : env.batchAt ci.head.blockNumber - 1 = 0) :
    finalizePreviousBatch env s ci = some [] := by
  unfold finalizePreviousBatch
  rw [if_pos hgen]

/-- Witness for C5 at a concrete genesis input. -/
theorem genesis_batch_returns_empty_witness :
    finalizePreviousBatch envW stateW ciGen = some [] :=
  genesis_batch_returns_empty envW stateW ciGen (by decide)

/-- C8: `finalize_previous_batch` is deterministic: two invocations on
identical inputs (environment, state snapshot, chain info — including
the verifiable seed carried by the macro header) return identical
inherent lists. -/
theorem finalize_previous_batch_deterministic (env1 env2 : Env)
    (s1 s2 : BlockchainState) (ci1 ci2 : ChainInfo)
    (he : env1 = env2) (hs : s1 = s2) (hc : ci1 = ci2) :
    finalizePreviousBatch env1 s1 ci1 = finalizePreviousBatch env2 s2 ci2 := by
  subst he; subst hs; subst hc; rfl

/-- Witness for C8 at a concrete input. -/
theorem finalize_previous_batch_deterministic_witness :
    finalizePreviousBatch envW stateW ciW = finalizePreviousBatch envW stateW ciW :=
  finalize_previous_batch_deterministic envW envW stateW stateW ciW ciW rfl rfl rfl

/-- C9: `finalize_previous_epoch` returns exactly the inherent
`(FinalizeEpoch, validator registry, value 0, empty data)`, depending
on nothing beyond the resolved registry address. -/
theorem finalize_previous_epoch_spec (env : Env) (reg : Address)
    (h : env.validatorRegistry = some reg) :
    finalizePreviousEpoch env = some ⟨InherentType.FinalizeEpoch, reg, 0, []⟩ := by
  unfold finalizePreviousEpoch
  rw [h]

/-- Witness for C9 at a concrete environment. -/
theorem finalize_previous_epoch_spec_witness :
    finalizePreviousEpoch envW = some ⟨InherentType.FinalizeEpoch, 7, 0, []⟩ :=
  finalize_previous_epoch_spec envW 7 rfl

/-- C2: per-band slashed-slot accounting.  The source never advances
the peekable slashed-set iterator inside the counting loop, so any
slashed index falling inside a band is counted against that band
repeatedly until the eligible count reaches zero and
`assert!(num_eligible_slots > 0)` fails: with two bands of five slots
and slot 0 slashed, the whole finalization aborts instead of
consuming the entry and emitting rewards. -/
theorem slashed_band_aborts_finalization :
    finalizePreviousBatch envW stateSlash ciW = none := by decide

/-- C3 counterexample: with one band of ten slots, nothing slashed, a
reward pot of 103, and every account rejecting, the claim predicts the
output `[Reward(burn address 9, 103), FinalizeBatch(registry 7)]`;
the code instead reaches the remainder lottery with an empty accepted
list and aborts, returning no list at all. -/
theorem universal_rejection_not_burn_and_finalize :
    finalizePreviousBatch envW stateRej ciW ≠
      some [⟨InherentType.Reward, 9, 103, []⟩, ⟨InherentType.FinalizeBatch, 7, 0, []⟩] := by
  decide

/-- C3 amended: in the universal-rejection scenario — and likewise in
the all-slashed scenario — `finalize_previous_batch` does not return
`[burn, FinalizeBatch]`; it aborts and returns no list: with every
band rejected the remainder lottery has no weights and the indexing
`inherents[index]` cannot be performed, and with a slashed slot in the
first band the per-band counting loop fails its eligibility
assertion. -/
theorem rejection_or_all_slashed_aborts :
    (∀ (env : Env) (s : BlockchainState) (ci : ChainInfo),
        ¬ env.batchAt ci.head.blockNumber - 1 = 0 →
        (∀ i n, s.checkInherent i n = false) →
        finalizePreviousBatch env s ci = none) ∧
    (∀ (env : Env) (s : BlockchainState) (ci : ChainInfo) (prevSlots : Slots)
        (band : ValidatorSlotBand) (rest : List ValidatorSlotBand) (tl : List Nat),
        ¬ env.batchAt ci.head.blockNumber - 1 = 0 →
        s.previousSlots = some prevSlots →
        prevSlots.validatorSlots = band :: rest →
        0 < band.numSlots →
        slashedSet s = 0 :: tl →
        finalizePreviousBatch env s ci = none) := by
  constructor
  · intro env s ci hgen hrej
    unfold finalizePreviousBatch
    rw [if_neg hgen]
    cases hps : s.previousSlots with
    | none => rfl
    | some prevSlots =>
      dsimp only
      cases hbl : bandLoop s ci.head.blockNumber (slotReward env s ci)
          prevSlots.validatorSlots (slashedSet s) 0 [] [] 0 with
      | none => rfl
      | some t =>
        obtain ⟨acc, w, b⟩ := t
        dsimp only
        obtain ⟨hacc, hw⟩ := bandLoop_reject s ci.head.blockNumber (slotReward env s ci) hrej
          prevSlots.validatorSlots (slashedSet s) 0 [] [] 0 acc w b hbl
        subst hacc; subst hw
        rfl
  · intro env s ci prevSlots band rest tl hgen hps hbands hpos hsl
    unfold finalizePreviousBatch
    rw [if_neg hgen, hps]
    dsimp only
    have hnone : bandLoop s ci.head.blockNumber (slotReward env s ci)
        prevSlots.validatorSlots (slashedSet s) 0 [] [] 0 = none := by
      rw [hbands, hsl]
      unfold bandLoop
      rw [slashCount_head_in_band 0 tl 0 (0 + band.numSlots) (by simp)
        (by simpa using hpos) band.numSlots 0]
    rw [hnone]

/-- Witness for the amended C3: the universal-rejection leg applied to
a concrete rejecting state. -/
theorem rejection_or_all_slashed_aborts_witness :
    finalizePreviousBatch envW stateRej ciW = none :=
  rejection_or_all_slashed_aborts.1 envW stateRej ciW (by decide) (fun _ _ => rfl)

theorem coin_conservation_key (X Y M P SD : Nat)
    (h1 : X + Y = SD) (h2 : SD + M = P) : X + M + Y = P := by
  omega

/-- C1: value conservation.  For every non-genesis finalization that
returns a list — over every slashed set and every acceptance pattern —
given the data-model invariant that the slot bands partition the
`SLOTS` slot indices, the values of the emitted Reward inherents
(including the burn-address Reward inherent) sum exactly to the reward
pot: no coin is created or destroyed. -/
theorem conservation_of_reward_pot (env : Env) (s : BlockchainState) (ci : ChainInfo)
    (prevSlots : Slots) (l : List Inherent)
    (hgen : ¬ env.batchAt ci.head.blockNumber - 1 = 0)
    (hps : s.previousSlots = some prevSlots)
    (hcover : (prevSlots.validatorSlots.map ValidatorSlotBand.numSlots).sum = env.SLOTS)
    (h : finalizePreviousBatch env s ci = some l) :
    sumRewardValues l = rewardPot env s ci := by
  obtain ⟨ps, acc, w, burned, index, reg, hps2, hb, hlen, hsamp, hidx, hreg, hl⟩ :=
    finalize_some_inv env s ci l hgen h
  rw [hps] at hps2
  injection hps2 with hps3
  subst hps3
  obtain ⟨hsum, hlen2, hty⟩ := bandLoop_inv s ci.head.blockNumber (slotReward env s ci)
    prevSlots.validatorSlots (slashedSet s) 0 [] [] 0 acc w burned hb
  have haccty : ∀ x ∈ acc, x.ty = InherentType.Reward := by
    apply hty
    intro x hx
    simp at hx
  have haddty : ∀ x ∈ addToValue acc index (remainder env s ci), x.ty = InherentType.Reward := by
    intro x hx
    rcases addToValue_mem acc index (remainder env s ci) x hx with h1 | ⟨y, hy, hxy⟩
    · exact haccty x h1
    · rw [hxy]
      exact haccty y hy
  subst hl
  rw [sumRewardValues_append]
  have hburnfb : sumRewardValues
      [⟨InherentType.Reward, env.burnAddress, burned, []⟩,
       ⟨InherentType.FinalizeBatch, reg, 0, []⟩] = burned := by
    simp [sumRewardValues]
  rw [hburnfb, sumRewardValues_all _ haddty,
    addToValue_sumValues acc index (remainder env s ci) hidx]
  have hsum2 : sumValues acc + burned = slotReward env s ci * env.SLOTS := by
    rw [hcover] at hsum
    simpa [sumValues] using hsum
  have hdm := Nat.div_add_mod (rewardPot env s ci) env.SLOTS
  unfold slotReward at hsum2
  unfold remainder
  rw [Nat.mul_comm] at hsum2
  exact coin_conservation_key (sumValues acc) burned _ _ _ hsum2 hdm

/-- Witness for C1: the concrete accepting run, whose Reward values
53 + 50 + 0 sum to the pot 103. -/
theorem conservation_of_reward_pot_witness :
    sumRewardValues lW = rewardPot envW stateW ciW :=
  conservation_of_reward_pot envW stateW ciW ⟨[⟨5, 11⟩, ⟨5, 12⟩]⟩ lW
    (by decide) rfl (by decide) (by decide)

/-- C4: the remainder satisfies `0 ≤ remainder < SLOTS` (the lower
bound holds trivially in ℕ), and every returned list arises by adding
the remainder to the value of exactly one accepted Reward inherent,
at the single index drawn by the weighted sampler over the recorded
eligible-slot counts (one weight per accepted inherent, in emission
order), using the RNG derived from the macro header's seed with the
reward-distribution use case and sub-index 0. -/
theorem remainder_bound_and_lottery (env : Env) (s : BlockchainState) (ci : ChainInfo)
    (l : List Inherent)
    (hgen : ¬ env.batchAt ci.head.blockNumber - 1 = 0)
    (h : finalizePreviousBatch env s ci = some l) :
    remainder env s ci < env.SLOTS ∧
    ∃ prevSlots acc w burned index reg,
      s.previousSlots = some prevSlots ∧
      bandLoop s ci.head.blockNumber (slotReward env s ci) prevSlots.validatorSlots
        (slashedSet s) 0 [] [] 0 = some (acc, w, burned) ∧
      acc.length = w.length ∧
      aliasSample w (env.rng ci.head.seed VrfUseCase.RewardDistribution 0) = some index ∧
      index < acc.length ∧
      env.validatorRegistry = some reg ∧
      l = addToValue acc index (remainder env s ci)
        ++ [⟨InherentType.Reward, env.burnAddress, burned, []⟩,
            ⟨InherentType.FinalizeBatch, reg, 0, []⟩] :=
  ⟨Nat.mod_lt _ env.SLOTS_pos, finalize_some_inv env s ci l hgen h⟩

/-- Witness for C4 at the concrete accepting run. -/
theorem remainder_bound_and_lottery_witness :
    remainder envW stateW ciW < envW.SLOTS :=
  (remainder_bound_and_lottery envW stateW ciW lW (by decide) (by decide)).1

/-- C10: whenever the per-band loop completes and the alias-method
sampler draws an index over the recorded eligible-slot-count weights,
that index is strictly below the number of accepted Reward inherents,
so the remainder addition indexes an existing element. -/
theorem lottery_index_in_bounds (s : BlockchainState) (bn sr : Nat)
    (bands : List ValidatorSlotBand) (sl : List Nat)
    (acc : List Inherent) (w : List Nat) (burned : Coin) (r index : Nat)
    (hb : bandLoop s bn sr bands sl 0 [] [] 0 = some (acc, w, burned))
    (hs : aliasSample w r = some index) :
    index < acc.length := by
  have hlen := (bandLoop_inv s bn sr bands sl 0 [] [] 0 acc w burned hb).2.1 rfl
  have hw := aliasSample_lt w r index hs
  omega

/-- Witness for C10 at the concrete accepting run: the draw yields
index 0, below the two accepted inherents. -/
theorem lottery_index_in_bounds_witness :
    (0 : Nat) < ([⟨InherentType.Reward, 11, 50, []⟩,
      ⟨InherentType.Reward, 12, 50, []⟩] : List Inherent).length :=
  lottery_index_in_bounds stateW 2 10 [⟨5, 11⟩, ⟨5, 12⟩] [] _ [5, 5] 0 3 0
    (by decide) (by decide)

theorem inherentsFromViewChanges_length (env : Env) (vc : ViewChanges) (l : List Inherent)
    (h : inherentsFromViewChanges env vc = some l) :
    l.length = vc.lastViewNumber - vc.firstViewNumber := by
  unfold inherentsFromViewChanges at h
  split at h
  · exact absurd h (by simp)
  · next reg hreg =>
    have h2 := viewChangeLoop_length env reg vc.blockNumber _ l h
    simpa using h2

/-- C6: `create_slash_inherents` emits one inherent per fork proof, in
input order, followed by one inherent per view number in the half-open
range `[first_view_number, last_view_number)`; the total count is
`len(proofs) + (last - first)`, and `len(proofs)` when no view-change
record is supplied. -/
theorem slash_inherent_count :
    (∀ (env : Env) (fps : List ForkProof) (l : List Inherent),
        createSlashInherents env fps none = some l → l.length = fps.length) ∧
    (∀ (env : Env) (fps : List ForkProof) (vc : ViewChanges) (l : List Inherent),
        createSlashInherents env fps (some vc) = some l →
        l.length = fps.length + (vc.lastViewNumber - vc.firstViewNumber) ∧
        ∃ l1 l2, forkLoop env fps = some l1 ∧ inherentsFromViewChanges env vc = some l2 ∧
          l = l1 ++ l2) := by
  constructor
  · intro env fps l h
    unfold createSlashInherents at h
    split at h
    · exact absurd h (by simp)
    · next l1 h1 =>
      simp only [Option.some.injEq] at h
      subst h
      exact forkLoop_length env fps l1 h1
  · intro env fps vc l h
    unfold createSlashInherents at h
    split at h
    · exact absurd h (by simp)
    · next l1 h1 =>
      dsimp only at h
      split at h
      · exact absurd h (by simp)
      · next l2 h2 =>
        simp only [Option.some.injEq] at h
        subst h
        refine ⟨?_, l1, l2, h1, h2, rfl⟩
        rw [List.length_append, forkLoop_length env fps l1 h1,
          inherentsFromViewChanges_length env vc l2 h2]

/-- Witness for C6: one fork proof and the view-change record
`(block 6, views [2, 4))` yield three inherents. -/
theorem slash_inherent_count_witness :
    lSlash.length = [fpW].length + (vcW.lastViewNumber - vcW.firstViewNumber) :=
  ((slash_inherent_count.2 envW [fpW] vcW lSlash) (by decide)).1

theorem viewChangeLoop_mem (env : Env) (reg : Address) (bn : Nat) :
    ∀ vs l, viewChangeLoop env reg bn vs = some l → ∀ i ∈ l,
      ∃ v ∈ vs, ∃ producer slot,
        env.getSlotAt bn v = some (producer, slot) ∧
        i = ⟨InherentType.Slash, reg, 0,
          env.serializeSlashedSlot ⟨slot, producer.publicKey, bn⟩⟩ := by
  intro vs
  induction vs with
  | nil =>
    intro l h i hi
    unfold viewChangeLoop at h
    simp only [Option.some.injEq] at h
    subst h
    simp at hi
  | cons v rest ih =>
    intro l h i hi
    unfold viewChangeLoop at h
    split at h
    · exact absurd h (by simp)
    · next producer slot hslot =>
      split at h
      · exact absurd h (by simp)
      · next tl htl =>
        simp only [Option.some.injEq] at h
        subst h
        rcases List.mem_cons.mp hi with hi1 | hi2
        · exact ⟨v, List.mem_cons_self v rest, producer, slot, hslot, hi1⟩
        · obtain ⟨v2, hv2, producer2, slot2, hs2, hi3⟩ := ih tl htl i hi2
          exact ⟨v2, List.mem_cons_of_mem v hv2, producer2, slot2, hs2, hi3⟩

/-- C7: every Slash inherent produced from a fork proof or a view
change targets the validator registry, carries value zero, and carries
the serialized `SlashedSlot` of the slot and producer resolved at the
evidence's block and view number, with the event block set to the fork
proof's `header1` block number, respectively the view-change record's
block number. -/
theorem slash_inherent_shape :
    (∀ (env : Env) (fp : ForkProof) (i : Inherent),
        inherentFromForkProof env fp = some i →
        ∃ reg producer slot,
          env.validatorRegistry = some reg ∧
          env.getSlotAt fp.header1.blockNumber fp.header1.viewNumber = some (producer, slot) ∧
          i = ⟨InherentType.Slash, reg, 0,
            env.serializeSlashedSlot ⟨slot, producer.publicKey, fp.header1.blockNumber⟩⟩) ∧
    (∀ (env : Env) (vc : ViewChanges) (l : List Inherent) (i : Inherent),
        inherentsFromViewChanges env vc = some l → i ∈ l →
        ∃ reg producer slot,
          env.validatorRegistry = some reg ∧
          (∃ v ∈ List.range' vc.firstViewNumber (vc.lastViewNumber - vc.firstViewNumber),
            env.getSlotAt vc.blockNumber v = some (producer, slot)) ∧
          i = ⟨InherentType.Slash, reg, 0,
            env.serializeSlashedSlot ⟨slot, producer.publicKey, vc.blockNumber⟩⟩) := by
  constructor
  · intro env fp i h
    unfold inherentFromForkProof at h
    split at h
    · exact absurd h (by simp)
    · next reg hreg =>
      split at h
      · exact absurd h (by simp)
      · next producer slot hslot =>
        simp only [Option.some.injEq] at h
        exact ⟨reg, producer, slot, hreg, hslot, h.symm⟩
  · intro env vc l i h hi
    unfold inherentsFromViewChanges at h
    split at h
    · exact absurd h (by simp)
    · next reg hreg =>
      obtain ⟨v, hv, producer, slot, hslot, hieq⟩ :=
        viewChangeLoop_mem env reg vc.blockNumber _ l h i hi
      exact ⟨reg, producer, slot, hreg, ⟨v, hv, hslot⟩, hieq⟩

/-- Witness for C7: the fork-proof leg applied to the concrete proof
`fpW` under `envW`. -/
theorem slash_inherent_shape_witness :
    ∃ reg producer slot,
      envW.validatorRegistry = some reg ∧
      envW.getSlotAt fpW.header1.blockNumber fpW.header1.viewNumber = some (producer, slot) ∧
      (⟨InherentType.Slash, 7, 0, [6, 106, 5]⟩ : Inherent) = ⟨InherentType.Slash, reg, 0,
        envW.serializeSlashedSlot ⟨slot, producer.publicKey, fpW.header1.blockNumber⟩⟩ :=
  slash_inherent_shape.1 envW fpW ⟨InherentType.Slash, 7, 0, [6, 106, 5]⟩ (by decide)
